import Mathlib

/-!
Verification development for the `str` string-utility library
(`src/str/str.go`).

Embedding conventions:
* a Go string is modelled as its sequence of decoded Unicode code points,
  i.e. a `List Char` (the library decodes every input with `[]rune(s)` /
  `strings.Split(s, "")` before operating on it);
* a slice of strings (`[]string`) is a `List (List Char)`;
* Go `int` values that can be negative are modelled as `Int`,
  non-negative loop counters as `Nat`;
* fallible functions (`Slice`, `Char`) return `Except String (List Char)`.

Every definition is translated from `src/str/str.go`; comments cite the
Go function each definition embeds.
-/

namespace Str

/-- Go `unicode.IsSpace` (used via `strings.TrimSpace(c) == ""` in
`isBoundaryChar`): the Unicode White_Space code points. -/
def goIsSpace (c : Char) : Bool :=
  decide ((9 ≤ c.toNat ∧ c.toNat ≤ 13) ∨ c.toNat = 32 ∨ c.toNat = 133 ∨
    c.toNat = 160 ∨ c.toNat = 0x1680 ∨
    (0x2000 ≤ c.toNat ∧ c.toNat ≤ 0x200A) ∨ c.toNat = 0x2028 ∨
    c.toNat = 0x2029 ∨ c.toNat = 0x202F ∨ c.toNat = 0x205F ∨
    c.toNat = 0x3000)

/-- Grammar marks from `isGrammar` in str.go: the literal
string of marks (including the backtick appended in the source). -/
def grammarChars : List Char :=
  ['!', '?', ',', '.', '\x27', '\x22', '[', ']', '(', ')', '*', '~',
   '\x7b', '\x7d', ':', ';', '-', '<', '>', '+', '=', '|', '%', '&',
   '@', '#', '$', '^', '\\', '\x60']

/-- Go `isGrammar`: `strings.Contains(grammar, c)` for a one-character
string `c` is membership of the character in the mark list. -/
def isGrammar (c : Char) : Bool :=
  decide (c ∈ grammarChars)

/-- Splitter characters from `isBoundaryChar`: en dash, em dash,
forward slash. -/
def splitterChars : List Char :=
  ['–', '—', '/']

/-- Go `isBoundaryChar`: a splitter character, or any character that
`strings.TrimSpace` erases (i.e. a Unicode space). -/
def isBoundaryChar (c : Char) : Bool :=
  decide (c ∈ splitterChars) || goIsSpace c

/-- Go `boundaryNext cc i`, phrased on the suffix of `cc` that starts at
position `i + 1`: true at the end of the sequence, otherwise tests the
next character. -/
def boundaryNext : List Char → Bool
  | [] => true
  | c :: _ => isBoundaryChar c

/-- Go `grammarOnBoundary cc i precededByBoundary`, phrased on the
suffix of `cc` starting at position `i`.  The Go loop walks forward
through consecutive grammar marks; it never walks past the end because
`boundaryNext` returns true there first. -/
def grammarOnBoundary : List Char → Bool → Bool
  | [], _ => false
  | c :: rest, precededByBoundary =>
    if !isGrammar c then false
    else if precededByBoundary then true
    else if boundaryNext rest then true
    else grammarOnBoundary rest precededByBoundary

/-- The scanning loop of Go `Words`.  Go appends tokens at the end of
the slice and extends the token at index `idx` (the last one); here the
accumulator keeps the open token at the head and the final result is
reversed.  The `[]` arm of the inner match corresponds to the state
`idx = -1`, which the Go loop never reaches with
`precededByBoundary = false` (proved below); any value works there. -/
def wordsAux : List Char → Bool → List (List Char) → List (List Char)
  | [], _, words => words
  | c :: rest, precededByBoundary, words =>
    if grammarOnBoundary (c :: rest) precededByBoundary then
      wordsAux rest precededByBoundary words
    else if isBoundaryChar c then
      wordsAux rest true words
    else if precededByBoundary then
      wordsAux rest false ([c] :: words)
    else
      match words with
      | [] => wordsAux rest false [[c]]
      | w :: ws => wordsAux rest false ((w ++ [c]) :: ws)

/-- Go `Words`: scan with `precededByBoundary` initially true and no
open token. -/
def Words (s : List Char) : List (List Char) :=
  (wordsAux s true []).reverse

/-- The counting loop of Go `WordCount`, carrying the running count. -/
def wordCountAux : List Char → Bool → Nat → Nat
  | [], _, count => count
  | c :: rest, precededByBoundary, count =>
    if isGrammar c then
      wordCountAux rest precededByBoundary count
    else if isBoundaryChar c then
      wordCountAux rest true count
    else if precededByBoundary then
      wordCountAux rest false (count + 1)
    else
      wordCountAux rest false count

/-- Go `WordCount`. -/
def WordCount (s : List Char) : Nat :=
  wordCountAux s true 0

/-- Go `Len`: number of characters (`len([]rune(s))`). -/
def Len (s : List Char) : Nat :=
  s.length

/-- Go `Chars`: `strings.Split(s, "")`, the one-character substrings. -/
def Chars (s : List Char) : List (List Char) :=
  s.map (fun c => [c])

/-- Go `abs` from str.go. -/
def goAbs (n : Int) : Int :=
  if n < 0 then -n else n

/-- Go `nthEmptyString`. -/
def nthEmptyString (s : List Char) (n : Int) : Int :=
  if goAbs n > (s.length : Int) + 1 then -1
  else if n < 0 then ((s.length : Int) - -n) + 1
  else n - 1

/-- The scanning loop of Go `nthFirst`, phrased on the suffix of `s`
not yet scanned.  `charPos` is the character position of the head of
the suffix; the Go byte-level guard `i+len(subStr) > len(s)` and the
byte comparison `s[i:i+len(subStr)] == subStr` (always performed at a
rune start) correspond to the character-level length guard and prefix
test here. -/
def nthFirstGo (subStr : List Char) (n : Int) :
    List Char → Nat → Int → Int
  | [], _, _ => -1
  | c :: rest, charPos, seen =>
    if (c :: rest).length < subStr.length then -1
    else if subStr.isPrefixOf (c :: rest) then
      (if seen + 1 = n then (charPos : Int)
       else nthFirstGo subStr n rest (charPos + 1) (seen + 1))
    else nthFirstGo subStr n rest (charPos + 1) seen

/-- Go `nthFirst`. -/
def nthFirst (s subStr : List Char) (n : Int) : Int :=
  nthFirstGo subStr n s 0 0

/-- The loop of Go `nthLast`: `for i := len(rr) - subLen; i >= 0; i--`.
The `Nat` argument counts the remaining iterations, so the current loop
index is `cnt` when the argument is `cnt + 1`.  The comparison
`string(rr[i:i+subLen]) == subStr` (within bounds whenever the loop is
entered from `nthLast`) is the prefix test at position `i`. -/
def nthLastGo (s subStr : List Char) (n : Int) : Nat → Int → Int
  | 0, _ => -1
  | cnt + 1, seen =>
    if subStr.isPrefixOf (s.drop cnt) then
      (if seen + 1 = n then (cnt : Int)
       else nthLastGo s subStr n cnt (seen + 1))
    else nthLastGo s subStr n cnt seen

/-- Go `nthLast`: the loop runs for `len(rr) - subLen + 1` iterations
(none when `subLen > len(rr)`, exactly as the Go loop condition). -/
def nthLast (s subStr : List Char) (n : Int) : Int :=
  nthLastGo s subStr n (s.length + 1 - subStr.length) 0

/-- Go `Nth`. -/
def Nth (s subStr : List Char) (n : Int) : Int :=
  if n = 0 then -1
  else if Len subStr > Len s then -1
  else if subStr = [] then nthEmptyString s n
  else if n < 0 then nthLast s subStr (-n)
  else nthFirst s subStr n

/-- Go `Slice`.  `cc[a:b]` is `(cc.drop a).take (b - a)` and
`cc[a:] ++ cc[0:b]` is `cc.drop a ++ cc.take b`. -/
def Slice (s : List Char) (start stop : Int) : Except String (List Char) :=
  if goAbs start > (s.length : Int) ∨ goAbs stop > (s.length : Int) then
    Except.error "index out of bounds"
  else
    let start' := if start < 0 then (s.length : Int) + start else start
    let stop' := if stop < 0 then (s.length : Int) + stop else stop
    if start' > stop' then
      Except.ok (s.drop start'.toNat ++ s.take stop'.toNat)
    else
      Except.ok ((s.drop start'.toNat).take (stop' - start').toNat)

/-- Go `Char` (named `charAt` here because `Char` is the Lean character
type): `Slice(s, i, i+1)`. -/
def charAt (s : List Char) (i : Int) : Except String (List Char) :=
  Slice s i (i + 1)

/-- Go `splitBeforeEmptySep`.  `strings.Split(s, "")` is the list of
one-character substrings; `rr[0:len(rr)-n]` after the `n--` decrement
is the take below. -/
def splitBeforeEmptySep (s : List Char) (n : Int) : List (List Char) :=
  if s = [] then []
  else if n < 0 then Chars s
  else if n > (s.length : Int) then Chars s
  else
    s.take (s.length - (n - 1).toNat) ::
      (s.drop (s.length - (n - 1).toNat)).map (fun c => [c])

/-- The loop of Go `SplitBeforeN` for a non-empty separator, scanning
positions from `len(s) - len(sep)` down to `0` while truncating `s` at
each match.  The `Nat` argument counts remaining iterations (current
index `cnt` when it is `cnt + 1`); the accumulator holds the collected
pieces newest-first (Go appends them oldest-first and reverses at the
end, which is the same list).  Returns the remaining `s` and the
accumulator. -/
def splitBeforeGo (sep : List Char) (n : Int) :
    Nat → List Char → List (List Char) → List Char × List (List Char)
  | 0, s, acc => (s, acc)
  | cnt + 1, s, acc =>
    if (acc.length : Int) = n - 1 then (s, acc)
    else if s.length < sep.length then (s, acc)
    else if s.length - (cnt + 1) < sep.length then
      splitBeforeGo sep n cnt s acc
    else if sep.isPrefixOf (s.drop cnt) then
      splitBeforeGo sep n cnt (s.take cnt) ((s.drop cnt) :: acc)
    else splitBeforeGo sep n cnt s acc

/-- Go `SplitBeforeN`.  The standard library returns a nil slice when
`n` is 0; `ReverseSlice` plus the append order of the loop make the
result `s' :: acc` for the final loop state `(s', acc)`. -/
def SplitBeforeN (s sep : List Char) (n : Int) : List (List Char) :=
  if n = 0 then []
  else if sep = [] then splitBeforeEmptySep s n
  else
    let r := splitBeforeGo sep n (s.length + 1 - sep.length) s []
    r.1 :: r.2

/-- Go `strings.ToLower` on a word, modelled with Lean's per-character
simple lowercase mapping (the claims proved here do not depend on the
case table). -/
def toLowerStr (w : List Char) : List Char :=
  w.map Char.toLower

/-- Go `occurrences`: builds the multiset of (possibly folded) keys and
pairs every distinct key with its count.  The Go map iteration order is
unspecified; the model lists distinct keys in `List.dedup` order, which
is immaterial to the claims (they are order-insensitive). -/
def occurrences (ss : List (List Char)) (fold : Bool) :
    List (List Char × Nat) :=
  let keys := ss.map (fun w => if fold then toLowerStr w else w)
  keys.dedup.map (fun k => (k, keys.count k))

/-- Go `CharsByOccurrence`: `occurrences(strings.Split(s, ""), fold)`. -/
def CharsByOccurrence (s : List Char) (fold : Bool) :
    List (List Char × Nat) :=
  occurrences (Chars s) fold

/-! Helper lemmas about the boundary classifier and the scan loops. -/

lemma grammar_not_boundary {c : Char} (h : isGrammar c = true) :
    isBoundaryChar c = false := by
  have hall : ∀ x ∈ grammarChars, isBoundaryChar x = false := by decide
  exact hall c (of_decide_eq_true h)

lemma grammarOnBoundary_not_grammar {c : Char} {l : List Char} {p : Bool}
    (h : isGrammar c = false) : grammarOnBoundary (c :: l) p = false := by
  simp [grammarOnBoundary, h]

lemma grammarOnBoundary_grammar_true {c : Char} {l : List Char}
    (h : isGrammar c = true) : grammarOnBoundary (c :: l) true = true := by
  simp [grammarOnBoundary, h]

/-- The token-list length produced by the `Words` loop agrees with the
running count of the `WordCount` loop, given the loop invariant that a
token is open whenever `precededByBoundary` is false. -/
lemma wordsAux_length_eq (l : List Char) :
    ∀ (p : Bool) (ws : List (List Char)), (p = false → ws ≠ []) →
      (wordsAux l p ws).length = wordCountAux l p ws.length := by
  induction l with
  | nil => intro p ws _; simp [wordsAux, wordCountAux]
  | cons c rest ih =>
    intro p ws hinv
    by_cases hg : isGrammar c = true
    · have hnb : isBoundaryChar c = false := grammar_not_boundary hg
      by_cases hgb : grammarOnBoundary (c :: rest) p = true
      · simp only [wordsAux, hgb, if_true, wordCountAux, hg]
        exact ih p ws hinv
      · have hp : p = false := by
          cases p
          · rfl
          · exact absurd (grammarOnBoundary_grammar_true hg) hgb
        subst hp
        obtain ⟨w, ws₂, rfl⟩ : ∃ w ws₂, ws = w :: ws₂ := by
          cases ws with
          | nil => exact absurd rfl (hinv rfl)
          | cons w ws₂ => exact ⟨w, ws₂, rfl⟩
        have hgb' : grammarOnBoundary (c :: rest) false = false :=
          eq_false_of_ne_true hgb
        simp only [wordsAux, hgb', Bool.false_eq_true, if_false, hnb,
          wordCountAux, hg, if_true]
        have := ih false ((w ++ [c]) :: ws₂) (by simp)
        simpa using this
    · have hg' : isGrammar c = false := eq_false_of_ne_true hg
      have hgb : grammarOnBoundary (c :: rest) p = false :=
        grammarOnBoundary_not_grammar hg'
      by_cases hb : isBoundaryChar c = true
      · simp only [wordsAux, hgb, Bool.false_eq_true, if_false, hb,
          if_true, wordCountAux, hg']
        exact ih true ws (by simp)
      · have hb' : isBoundaryChar c = false := eq_false_of_ne_true hb
        cases p with
        | false =>
          obtain ⟨w, ws₂, rfl⟩ : ∃ w ws₂, ws = w :: ws₂ := by
            cases ws with
            | nil => exact absurd rfl (hinv rfl)
            | cons w ws₂ => exact ⟨w, ws₂, rfl⟩
          simp only [wordsAux, hgb, Bool.false_eq_true, if_false, hb',
            wordCountAux, hg']
          have := ih false ((w ++ [c]) :: ws₂) (by simp)
          simpa using this
        | true =>
          simp only [wordsAux, hgb, Bool.false_eq_true, if_false, hb',
            if_true, wordCountAux, hg']
          have := ih false ([c] :: ws) (by simp)
          simpa using this

/-- Every word the `Words` loop ever stores is non-empty and free of
boundary characters, provided the accumulator already satisfies that. -/
lemma wordsAux_sound (l : List Char) :
    ∀ (p : Bool) (ws : List (List Char)),
      (∀ w ∈ ws, w ≠ [] ∧ ∀ c ∈ w, isBoundaryChar c = false) →
      ∀ w ∈ wordsAux l p ws, w ≠ [] ∧ ∀ c ∈ w, isBoundaryChar c = false := by
  induction l with
  | nil => intro p ws hws; simpa [wordsAux] using hws
  | cons c rest ih =>
    intro p ws hws
    by_cases hgb : grammarOnBoundary (c :: rest) p = true
    · simp only [wordsAux, hgb, if_true]
      exact ih p ws hws
    · have hgb' : grammarOnBoundary (c :: rest) p = false :=
        eq_false_of_ne_true hgb
      by_cases hb : isBoundaryChar c = true
      · simp only [wordsAux, hgb', Bool.false_eq_true, if_false, hb, if_true]
        exact ih true ws hws
      · have hb' : isBoundaryChar c = false := eq_false_of_ne_true hb
        cases p with
        | true =>
          simp only [wordsAux, hgb', Bool.false_eq_true, if_false, hb',
            if_true]
          refine ih false ([c] :: ws) ?_
          intro w hw
          rcases List.mem_cons.mp hw with h | h
          · subst h
            exact ⟨by simp, by intro x hx; simp at hx; subst hx; exact hb'⟩
          · exact hws w h
        | false =>
          cases ws with
          | nil =>
            simp only [wordsAux, hgb', Bool.false_eq_true, if_false, hb']
            refine ih false [[c]] ?_
            intro w hw
            simp at hw; subst hw
            exact ⟨by simp, by intro x hx; simp at hx; subst hx; exact hb'⟩
          | cons w₀ ws₂ =>
            simp only [wordsAux, hgb', Bool.false_eq_true, if_false, hb']
            refine ih false ((w₀ ++ [c]) :: ws₂) ?_
            intro w hw
            rcases List.mem_cons.mp hw with h | h
            · subst h
              refine ⟨by simp, ?_⟩
              intro x hx
              rcases List.mem_append.mp hx with h' | h'
              · exact (hws w₀ (List.mem_cons_self w₀ ws₂)).2 x h'
              · simp at h'; subst h'; exact hb'
            · exact hws w (List.mem_cons_of_mem _ h)

/-- Claim C1: for every input string `s`, `WordCount s` equals the
number of tokens returned by `Words s` (including the empty string and
boundary-only strings). -/
theorem C1_wordCount_eq_words_length (s : List Char) :
    (Words s).length = WordCount s := by
  have h := wordsAux_length_eq s true [] (by simp)
  simpa [Words, WordCount] using h

/-- Claim C2: `Words` applied to the example sentence returns exactly
the seven tokens of the spec, in order. -/
theorem C2_words_example_sentence :
    Words "\x22Here\x27s a sentence,\x22 said the narrator/programmer.".toList =
      ["Here\x27s".toList, "a".toList, "sentence".toList, "said".toList,
       "the".toList, "narrator".toList, "programmer".toList] := by
  decide

/-- Claim C9: every token returned by `Words` is non-empty and contains
no boundary character (no Unicode whitespace, en dash, em dash, or
forward slash). -/
theorem C9_words_tokens_nonempty_no_boundary (s : List Char)
    (w : List Char) (hw : w ∈ Words s) :
    w ≠ [] ∧ ∀ c ∈ w, isBoundaryChar c = false := by
  refine wordsAux_sound s true [] (by simp) w ?_
  simpa [Words] using hw

/-- Witness for C9 at a concrete input. -/
theorem C9_witness :
    ['h', 'i'] ≠ ([] : List Char) ∧
      ∀ c ∈ ['h', 'i'], isBoundaryChar c = false :=
  C9_words_tokens_nonempty_no_boundary "hi".toList ['h', 'i'] (by decide)

/-- Claim C3: with the empty substring, `Nth` returns `n - 1` for
`0 < n ≤ length + 1`, returns `length + n + 1` for
`-(length + 1) ≤ n < 0`, and returns `-1` when `|n| > length + 1`. -/
theorem C3_nth_empty_substring (s : List Char) (n : Int) (hn : n ≠ 0) :
    (0 < n → n ≤ (s.length : Int) + 1 → Nth s [] n = n - 1) ∧
    (-((s.length : Int) + 1) ≤ n → n < 0 →
      Nth s [] n = (s.length : Int) + n + 1) ∧
    ((s.length : Int) + 1 < goAbs n → Nth s [] n = -1) := by
  have hNth : Nth s [] n = nthEmptyString s n := by
    simp [Nth, hn, Len]
  rw [hNth]
  refine ⟨?_, ?_, ?_⟩
  · intro h1 h2
    simp only [nthEmptyString, goAbs]
    split_ifs <;> omega
  · intro h1 h2
    simp only [nthEmptyString, goAbs]
    split_ifs <;> omega
  · intro h1
    simp only [goAbs] at h1
    simp only [nthEmptyString, goAbs]
    split_ifs at h1 ⊢ <;> omega

/-- Witness for C3 at a concrete input. -/
theorem C3_witness : Nth ([] : List Char) [] 1 = 0 := by
  have h := (C3_nth_empty_substring [] 1 (by decide)).1 (by decide) (by simp)
  simpa using h

/-- Claim C4: when both indices are in range and the normalized start
exceeds the normalized end, `Slice` wraps: it returns the characters
from `start` to the end of the string followed by those from the
beginning up to `end`, without an error. -/
theorem C4_slice_wrap (s : List Char) (start stop a b : Int)
    (hna : a = if start < 0 then (s.length : Int) + start else start)
    (hnb : b = if stop < 0 then (s.length : Int) + stop else stop)
    (h1 : goAbs start ≤ (s.length : Int)) (h2 : goAbs stop ≤ (s.length : Int))
    (hw : b < a) :
    Slice s start stop = Except.ok (s.drop a.toNat ++ s.take b.toNat) := by
  have hcond : ¬(goAbs start > (s.length : Int) ∨
      goAbs stop > (s.length : Int)) := by
    push_neg
    exact ⟨h1, h2⟩
  simp only [Slice]
  rw [if_neg hcond, ← hna, ← hnb, if_pos hw]

/-- Witness for C4: the spec's literal wrap example
`slice("Hello", -1, 2) == "oHe"`. -/
theorem C4_witness : Slice "Hello".toList (-1) 2 = Except.ok "oHe".toList := by
  have h := C4_slice_wrap "Hello".toList (-1) 2 4 2 (by decide) (by decide)
    (by decide) (by decide) (by decide)
  rw [h]
  rfl

/-- The two lawful `BEq` instances on `List Char` (the structural one
picked up by `occurrences` and the `DecidableEq`-derived one used by
Mathlib's dedup lemmas) count identically. -/
lemma count_beq_instances (k : List Char) (l : List (List Char)) :
    @List.count (List Char) List.instBEq k l =
      @List.count (List Char) instBEqOfDecidableEq k l := by
  induction l with
  | nil => rfl
  | cons x xs ih =>
    by_cases h : x = k <;>
      simp [List.count_cons, beq_iff_eq, h, ih]

/-- Claim C8: the counts returned by `CharsByOccurrence` sum to the
character length of the input, for every fold setting. -/
theorem C8_charsByOccurrence_counts_sum (s : List Char) (fold : Bool) :
    (((CharsByOccurrence s fold).map Prod.snd).sum) = Len s := by
  simp only [CharsByOccurrence, occurrences, Chars, Len, List.map_map]
  set keys := List.map ((fun w => if fold = true then toLowerStr w else w) ∘
    fun c => [c]) s with hkeys
  have hfun : (Prod.snd ∘ fun k : List Char => (k, List.count k keys)) =
      fun k : List Char => List.count k keys := rfl
  rw [hfun]
  have h := List.sum_map_count_dedup_eq_length keys
  have hlen : keys.length = s.length := by
    rw [hkeys]
    exact List.length_map _ _
  rw [hlen] at h
  rw [show (fun k : List Char => List.count k keys) =
      fun k : List Char => @List.count _ instBEqOfDecidableEq k keys from
    funext fun k => count_beq_instances k keys]
  exact h

/-- Counterexample for C6: with `s = "abc"` and limit 2, the code
returns `["ab", "c"]` — the FIRST piece absorbs the remainder — not
`["a", "bc"]` as the claim's "last piece absorbs the remainder"
requires. -/
theorem C6_counterexample :
    SplitBeforeN "abc".toList [] 2 = ["ab".toList, "c".toList] ∧
      SplitBeforeN "abc".toList [] 2 ≠ ["a".toList, "bc".toList] := by
  decide

/-- Claim C6 (amended): for `0 < limit < length`, splitting on the
empty separator yields exactly `limit` pieces, where the FIRST piece
absorbs the leading remainder and the remaining pieces are the trailing
individual characters. -/
theorem C6_split_empty_sep (s : List Char) (n : Int) (h1 : 0 < n)
    (h2 : n < (s.length : Int)) :
    SplitBeforeN s [] n =
      s.take (s.length - (n.toNat - 1)) ::
        (s.drop (s.length - (n.toNat - 1))).map (fun c => [c]) ∧
    (SplitBeforeN s [] n).length = n.toNat := by
  have hne : s ≠ [] := by
    intro h
    subst h
    simp at h2
    omega
  have hn0 : n ≠ 0 := by omega
  have hsplit : SplitBeforeN s [] n = splitBeforeEmptySep s n := by
    simp [SplitBeforeN, hn0]
  have htn : (n - 1).toNat = n.toNat - 1 := by omega
  have hform : splitBeforeEmptySep s n =
      s.take (s.length - (n.toNat - 1)) ::
        (s.drop (s.length - (n.toNat - 1))).map (fun c => [c]) := by
    simp only [splitBeforeEmptySep, htn]
    rw [if_neg hne, if_neg (by omega : ¬ n < 0),
      if_neg (by omega : ¬ n > (s.length : Int))]
  refine ⟨hsplit.trans hform, ?_⟩
  rw [hsplit, hform]
  simp only [List.length_cons, List.length_map, List.length_drop]
  omega

/-- Witness for C6 at a concrete input. -/
theorem C6_witness : (SplitBeforeN "abcd".toList [] 3).length = 3 := by
  have h := (C6_split_empty_sep "abcd".toList 3 (by decide) (by decide)).2
  simpa using h

/-- Counterexample for C5: at `i = length(s)` the absolute value does
not exceed the length, yet `Char` returns an OutOfBounds error (the
internal `Slice(s, i, i+1)` checks `|i+1|`); moreover at
`Char("H", -1)` no error is raised but the result is the empty string,
not a character. -/
theorem C5_counterexample :
    charAt "Hello".toList 5 = Except.error "index out of bounds" ∧
      goAbs 5 ≤ ("Hello".toList.length : Int) ∧
      charAt "H".toList (-1) = Except.ok [] :=
  ⟨rfl, by decide, rfl⟩

/-- Claim C5 (amended): `Char(s, i)` returns an OutOfBounds error
exactly when `|i| > length(s)` or `i = length(s)`; in the remaining
cases it returns a single character, except that for `i = -1` on a
one-character string it returns the empty string. -/
theorem C5_charAt_error_iff (s : List Char) (i : Int) :
    ((∃ e, charAt s i = Except.error e) ↔
      ((s.length : Int) < goAbs i ∨ i = (s.length : Int))) ∧
    (∀ t, charAt s i = Except.ok t →
      t.length = 1 ∨ (i = -1 ∧ s.length = 1 ∧ t = [])) := by
  have key : (goAbs i > (s.length : Int) ∨ goAbs (i + 1) > (s.length : Int)) ↔
      ((s.length : Int) < goAbs i ∨ i = (s.length : Int)) := by
    simp only [goAbs]
    split_ifs <;> omega
  by_cases hE : goAbs i > (s.length : Int) ∨ goAbs (i + 1) > (s.length : Int)
  · have herr : charAt s i = Except.error "index out of bounds" := by
      simp only [charAt, Slice]
      rw [if_pos hE]
    refine ⟨⟨fun _ => key.mp hE, fun _ => ⟨_, herr⟩⟩, ?_⟩
    intro t ht
    rw [herr] at ht
    exact absurd ht (by simp)
  · push_neg at hE
    obtain ⟨h1, h2⟩ := hE
    have h1' : -i ≤ (s.length : Int) ∧ i ≤ (s.length : Int) := by
      simp only [goAbs] at h1
      split_ifs at h1 <;> omega
    have h2' : -(i + 1) ≤ (s.length : Int) ∧ i + 1 ≤ (s.length : Int) := by
      simp only [goAbs] at h2
      split_ifs at h2 <;> omega
    have hnE : ¬(goAbs i > (s.length : Int) ∨
        goAbs (i + 1) > (s.length : Int)) := by
      push_neg
      exact ⟨h1, h2⟩
    constructor
    · constructor
      · rintro ⟨e, he⟩
        simp only [charAt, Slice] at he
        rw [if_neg hnE] at he
        split_ifs at he
      · intro hr
        exact absurd (key.mpr hr) hnE
    · intro t ht
      simp only [charAt, Slice] at ht
      rw [if_neg hnE] at ht
      by_cases hi : 0 ≤ i
      · rw [if_neg (by omega : ¬ i < 0),
          if_neg (by omega : ¬ i + 1 < 0),
          if_neg (by omega : ¬ i > i + 1)] at ht
        have ht' := Except.ok.inj ht
        left
        rw [← ht']
        have hone : (i + 1 - i).toNat = 1 := by omega
        rw [hone]
        simp only [List.length_take, List.length_drop]
        omega
      · by_cases hi1 : i + 1 < 0
        · rw [if_pos (by omega : i < 0), if_pos hi1,
            if_neg (by omega : ¬ (s.length : Int) + i > (s.length : Int) + (i + 1))] at ht
          have ht' := Except.ok.inj ht
          left
          rw [← ht']
          have hone : ((s.length : Int) + (i + 1) - ((s.length : Int) + i)).toNat = 1 := by
            omega
          rw [hone]
          simp only [List.length_take, List.length_drop]
          omega
        · have hm1 : i = -1 := by omega
          subst hm1
          rw [if_pos (by omega : (-1 : Int) < 0),
            if_neg (by omega : ¬ (-1 : Int) + 1 < 0)] at ht
          by_cases hlen : 2 ≤ s.length
          · rw [if_pos (by omega : (s.length : Int) + -1 > -1 + 1)] at ht
            have ht' := Except.ok.inj ht
            left
            rw [← ht']
            have hz : ((-1 : Int) + 1).toNat = 0 := by omega
            rw [hz]
            simp only [List.length_append, List.length_take, List.length_drop]
            omega
          · have hlen1 : s.length = 1 := by omega
            rw [if_neg (by omega : ¬ (s.length : Int) + -1 > -1 + 1)] at ht
            have ht' := Except.ok.inj ht
            right
            refine ⟨rfl, hlen1, ?_⟩
            rw [← ht']
            have hz : ((-1 : Int) + 1 - ((s.length : Int) + -1)).toNat = 0 := by
              omega
            rw [hz]
            simp

/-- Witness for C5 at a concrete input. -/
theorem C5_witness : ∃ e, charAt "Hello".toList 7 = Except.error e :=
  (C5_charAt_error_iff "Hello".toList 7).1.mpr (by decide)

/-! Single-step unfolding lemmas for the `Words` scan, used to track the
scan through an explicitly decomposed input. -/

lemma wordsAux_cons_skip {c : Char} {l : List Char} {p : Bool}
    {ws : List (List Char)} (h : grammarOnBoundary (c :: l) p = true) :
    wordsAux (c :: l) p ws = wordsAux l p ws := by
  simp only [wordsAux, h, if_true]

lemma wordsAux_cons_boundary {c : Char} {l : List Char} {p : Bool}
    {ws : List (List Char)} (hgb : grammarOnBoundary (c :: l) p = false)
    (hb : isBoundaryChar c = true) :
    wordsAux (c :: l) p ws = wordsAux l true ws := by
  simp only [wordsAux, hgb, Bool.false_eq_true, if_false, hb, if_true]

lemma wordsAux_cons_open {c : Char} {l : List Char} {ws : List (List Char)}
    (hgb : grammarOnBoundary (c :: l) true = false)
    (hb : isBoundaryChar c = false) :
    wordsAux (c :: l) true ws = wordsAux l false ([c] :: ws) := by
  simp only [wordsAux, hgb, Bool.false_eq_true, if_false, hb, if_true]

lemma wordsAux_cons_extend {c : Char} {l : List Char} {w : List Char}
    {ws : List (List Char)} (hgb : grammarOnBoundary (c :: l) false = false)
    (hb : isBoundaryChar c = false) :
    wordsAux (c :: l) false (w :: ws) = wordsAux l false ((w ++ [c]) :: ws) := by
  simp only [wordsAux, hgb, Bool.false_eq_true, if_false, hb]

/-- Processing a first segment of the input moves the scan to some
intermediate state that still satisfies the open-token invariant. -/
lemma wordsAux_append (l₁ : List Char) :
    ∀ (l₂ : List Char) (p : Bool) (ws : List (List Char)),
      (p = false → ws ≠ []) →
      ∃ p' ws', wordsAux (l₁ ++ l₂) p ws = wordsAux l₂ p' ws' ∧
        (p' = false → ws' ≠ []) := by
  induction l₁ with
  | nil => intro l₂ p ws hinv; exact ⟨p, ws, by simp, hinv⟩
  | cons c rest ih =>
    intro l₂ p ws hinv
    rw [List.cons_append]
    by_cases hgb : grammarOnBoundary (c :: (rest ++ l₂)) p = true
    · rw [wordsAux_cons_skip hgb]
      exact ih l₂ p ws hinv
    · have hgb' := eq_false_of_ne_true hgb
      by_cases hb : isBoundaryChar c = true
      · rw [wordsAux_cons_boundary hgb' hb]
        exact ih l₂ true ws (by simp)
      · have hb' := eq_false_of_ne_true hb
        cases p with
        | true =>
          rw [wordsAux_cons_open hgb' hb']
          exact ih l₂ false ([c] :: ws) (by simp)
        | false =>
          obtain ⟨w, ws₂, rfl⟩ : ∃ w ws₂, ws = w :: ws₂ := by
            cases ws with
            | nil => exact absurd rfl (hinv rfl)
            | cons w ws₂ => exact ⟨w, ws₂, rfl⟩
          rw [wordsAux_cons_extend hgb' hb']
          exact ih l₂ false ((w ++ [c]) :: ws₂) (by simp)

/-- Once a token `w` is open with the rest of the accumulator `ws`
behind it, the final accumulator consists of some newer tokens, a token
extending `w`, and `ws` unchanged. -/
lemma wordsAux_extends (l : List Char) :
    ∀ (p : Bool) (w : List Char) (ws : List (List Char)),
      ∃ front t, wordsAux l p (w :: ws) = front ++ (w ++ t) :: ws := by
  induction l with
  | nil => intro p w ws; exact ⟨[], [], by simp [wordsAux]⟩
  | cons c rest ih =>
    intro p w ws
    by_cases hgb : grammarOnBoundary (c :: rest) p = true
    · rw [wordsAux_cons_skip hgb]
      exact ih p w ws
    · have hgb' := eq_false_of_ne_true hgb
      by_cases hb : isBoundaryChar c = true
      · rw [wordsAux_cons_boundary hgb' hb]
        exact ih true w ws
      · have hb' := eq_false_of_ne_true hb
        cases p with
        | false =>
          rw [wordsAux_cons_extend hgb' hb']
          obtain ⟨front, t, hft⟩ := ih false (w ++ [c]) ws
          exact ⟨front, [c] ++ t, by rw [hft]; simp⟩
        | true =>
          rw [wordsAux_cons_open hgb' hb']
          obtain ⟨front, t, hft⟩ := ih false [c] (w :: ws)
          exact ⟨front ++ [[c] ++ t], [], by rw [hft]; simp⟩

/-- Counterexample for C7: in `"ab.cd"` the dot is a lone grammar mark,
not adjacent to any boundary character and not at either scan edge, yet
`Words` returns the single token `"ab.cd"` — the mark is kept inside
the surrounding token, and no one-character token `"."` exists. -/
theorem C7_counterexample :
    Words "ab.cd".toList = ["ab.cd".toList] ∧
      ¬ (".".toList ∈ Words "ab.cd".toList) := by
  decide

/-- Claim C7 (amended): a lone grammar mark whose two neighbours are
ordinary characters (so it is not adjacent to any boundary and not at
either scan edge) is retained by `Words`, inside a token that also
contains both neighbouring characters — never as a one-character token
of its own. -/
theorem C7_lone_grammar_mark_retained (pre post : List Char) (a g b : Char)
    (hg : isGrammar g = true)
    (ha1 : isGrammar a = false) (ha2 : isBoundaryChar a = false)
    (hb1 : isGrammar b = false) (hb2 : isBoundaryChar b = false) :
    ∃ w, w ∈ Words (pre ++ a :: g :: b :: post) ∧
      ∃ u v, w = u ++ a :: g :: b :: v := by
  obtain ⟨p', ws', heq, hinv⟩ :=
    wordsAux_append pre (a :: g :: b :: post) true [] (by simp)
  have hga : grammarOnBoundary (a :: g :: b :: post) p' = false :=
    grammarOnBoundary_not_grammar ha1
  have hstep : ∃ w₀ ws₁, wordsAux (a :: g :: b :: post) p' ws' =
      wordsAux (g :: b :: post) false ((w₀ ++ [a]) :: ws₁) := by
    cases p' with
    | true =>
      refine ⟨[], ws', ?_⟩
      rw [wordsAux_cons_open hga ha2]
      simp
    | false =>
      obtain ⟨w, ws₂, rfl⟩ : ∃ w ws₂, ws' = w :: ws₂ := by
        cases ws' with
        | nil => exact absurd rfl (hinv rfl)
        | cons w ws₂ => exact ⟨w, ws₂, rfl⟩
      exact ⟨w, ws₂, wordsAux_cons_extend hga ha2⟩
  obtain ⟨w₀, ws₁, hstep⟩ := hstep
  have hgg : grammarOnBoundary (g :: b :: post) false = false := by
    simp [grammarOnBoundary, boundaryNext, hg, hb1, hb2]
  have hgnb : isBoundaryChar g = false := grammar_not_boundary hg
  have hsg : wordsAux (g :: b :: post) false ((w₀ ++ [a]) :: ws₁) =
      wordsAux (b :: post) false ((w₀ ++ [a] ++ [g]) :: ws₁) :=
    wordsAux_cons_extend hgg hgnb
  have hgb' : grammarOnBoundary (b :: post) false = false :=
    grammarOnBoundary_not_grammar hb1
  have hsb : wordsAux (b :: post) false ((w₀ ++ [a] ++ [g]) :: ws₁) =
      wordsAux post false ((w₀ ++ [a] ++ [g] ++ [b]) :: ws₁) :=
    wordsAux_cons_extend hgb' hb2
  obtain ⟨front, t, hft⟩ :=
    wordsAux_extends post false (w₀ ++ [a] ++ [g] ++ [b]) ws₁
  refine ⟨w₀ ++ [a] ++ [g] ++ [b] ++ t, ?_, ⟨w₀, t, by simp⟩⟩
  unfold Words
  rw [List.mem_reverse, heq, hstep, hsg, hsb, hft]
  simp [List.append_assoc]

/-- Witness for C7 at a concrete input. -/
theorem C7_witness :
    ∃ w, w ∈ Words (([] : List Char) ++ 'a' :: '.' :: 'b' :: []) ∧
      ∃ u v, w = u ++ 'a' :: '.' :: 'b' :: v :=
  C7_lone_grammar_mark_retained [] [] 'a' '.' 'b' (by decide) (by decide)
    (by decide) (by decide) (by decide)

/-- A successful `List.isPrefixOf` test gives back the prefix by
taking, together with the length bound. -/
lemma take_of_isPrefixOf :
    ∀ {l₁ l₂ : List Char}, l₁.isPrefixOf l₂ = true →
      l₂.take l₁.length = l₁ ∧ l₁.length ≤ l₂.length := by
  intro l₁
  induction l₁ with
  | nil => intro l₂ _; simp
  | cons a as ih =>
    intro l₂ h
    cases l₂ with
    | nil => simp [List.isPrefixOf] at h
    | cons b bs =>
      simp only [List.isPrefixOf, Bool.and_eq_true] at h
      obtain ⟨h1, h2⟩ := h
      have hab : a = b := eq_of_beq h1
      obtain ⟨ht, hl⟩ := ih h2
      subst hab
      refine ⟨?_, by simpa using Nat.succ_le_succ hl⟩
      simp [List.take, ht]

/-- Soundness of the forward scan of `Nth`: any non-negative result is
a position, counted from the head of the remaining suffix, where the
substring literally occurs. -/
lemma nthFirstGo_sound (subStr : List Char) (n : Int) :
    ∀ (t : List Char) (charPos : Nat) (seen r : Int),
      nthFirstGo subStr n t charPos seen = r → 0 ≤ r →
      ∃ k : Nat, r = ((charPos + k : Nat) : Int) ∧
        k + subStr.length ≤ t.length ∧
        (t.drop k).take subStr.length = subStr := by
  intro t
  induction t with
  | nil =>
    intro charPos seen r hr h0
    simp only [nthFirstGo] at hr
    omega
  | cons c rest ih =>
    intro charPos seen r hr h0
    rw [nthFirstGo] at hr
    by_cases hlen : (c :: rest).length < subStr.length
    · rw [if_pos hlen] at hr
      omega
    · rw [if_neg hlen] at hr
      by_cases hpre : subStr.isPrefixOf (c :: rest) = true
      · rw [if_pos hpre] at hr
        by_cases hn : seen + 1 = n
        · rw [if_pos hn] at hr
          refine ⟨0, by omega, by omega, ?_⟩
          simpa using (take_of_isPrefixOf hpre).1
        · rw [if_neg hn] at hr
          obtain ⟨k, hk1, hk2, hk3⟩ := ih (charPos + 1) (seen + 1) r hr h0
          refine ⟨k + 1, by omega, by simp; omega, ?_⟩
          simpa using hk3
      · rw [if_neg hpre] at hr
        obtain ⟨k, hk1, hk2, hk3⟩ := ih (charPos + 1) seen r hr h0
        refine ⟨k + 1, by omega, by simp; omega, ?_⟩
        simpa using hk3

/-- Soundness of the backward scan of `Nth`: any non-negative result is
a position where the substring literally occurs, provided the iteration
count keeps every visited position in range. -/
lemma nthLastGo_sound (s subStr : List Char) (n : Int) :
    ∀ (cnt : Nat) (seen r : Int),
      cnt + subStr.length ≤ s.length + 1 →
      nthLastGo s subStr n cnt seen = r → 0 ≤ r →
      ∃ i : Nat, r = (i : Int) ∧ i + subStr.length ≤ s.length ∧
        (s.drop i).take subStr.length = subStr := by
  intro cnt
  induction cnt with
  | zero =>
    intro seen r hb hr h0
    simp only [nthLastGo] at hr
    omega
  | succ cnt ih =>
    intro seen r hb hr h0
    rw [nthLastGo] at hr
    by_cases hpre : subStr.isPrefixOf (s.drop cnt) = true
    · rw [if_pos hpre] at hr
      by_cases hn : seen + 1 = n
      · rw [if_pos hn] at hr
        refine ⟨cnt, by omega, by omega, (take_of_isPrefixOf hpre).1⟩
      · rw [if_neg hn] at hr
        exact ih (seen + 1) r (by omega) hr h0
    · rw [if_neg hpre] at hr
      exact ih seen r (by omega) hr h0

/-- Claim C10: for a non-empty substring and `n ≠ 0`, every
non-negative result of `Nth` is the character index of an actual
occurrence of the substring, lying within `[0, length(s) -
length(subStr)]`. -/
theorem C10_nth_result_is_occurrence (s subStr : List Char) (n r : Int)
    (hsub : subStr ≠ []) (hn : n ≠ 0)
    (hr : Nth s subStr n = r) (h0 : 0 ≤ r) :
    r.toNat + subStr.length ≤ s.length ∧
      (s.drop r.toNat).take subStr.length = subStr := by
  rw [Nth, if_neg hn] at hr
  by_cases hlen : Len subStr > Len s
  · rw [if_pos hlen] at hr
    omega
  · rw [if_neg hlen, if_neg hsub] at hr
    have hlen' : subStr.length ≤ s.length := by
      simpa [Len, not_lt] using hlen
    by_cases hneg : n < 0
    · rw [if_pos hneg] at hr
      rw [nthLast] at hr
      obtain ⟨i, hi1, hi2, hi3⟩ :=
        nthLastGo_sound s subStr (-n) (s.length + 1 - subStr.length) 0 r
          (by omega) hr h0
      have hti : r.toNat = i := by omega
      rw [hti]
      exact ⟨hi2, hi3⟩
    · rw [if_neg hneg] at hr
      rw [nthFirst] at hr
      obtain ⟨k, hk1, hk2, hk3⟩ := nthFirstGo_sound subStr n s 0 0 r hr h0
      have htk : r.toNat = k := by omega
      rw [htk]
      exact ⟨by omega, hk3⟩

/-- Witness for C10 at a concrete input. -/
theorem C10_witness :
    (0 : Int).toNat + "ab".toList.length ≤ "aba".toList.length ∧
      ("aba".toList.drop (0 : Int).toNat).take "ab".toList.length =
        "ab".toList :=
  C10_nth_result_is_occurrence "aba".toList "ab".toList 1 0 (by decide)
    (by decide) (by decide) (by decide)

end Str
